import Mathlib

/-!
Shallow embedding of the lock-free sharded map `lfm` (Go), in its
single-threaded semantics: every atomic load/CAS runs without interference,
so a CAS whose expected value was just read always succeeds.  Run-time
panics of the Go code (integer division by zero, nil-pointer dereference,
`sync/atomic.Value` misuse) are modelled by `Option`-valued results, `none`
meaning the call panics.

The repository carries three variants of the map.  They agree on
`Store`, `Load`, `LoadOrStore`, `Range` and `Length`; they differ in two
places, both modelled here:
  * `index`: `part_000`/`part_001` special-case a single-shard map, `map.go`
    does not (`indexNoGuard`);
  * `Delete`: `part_000`/`part_001` CAS raw pointers (`Map.Delete`), `map.go`
    CASes through `atomic.Value` (`Map.DeleteAV`).
-/

namespace LFM

/-- A Go string, modelled as its sequence of bytes. -/
abbrev Key := List Nat

/-- `keyValuePair` from the source: one chain entry.  The `nextPair` link is
represented by the position of the entry in a Lean list. -/
structure keyValuePair (T : Type) where
  key : Key
  value : T
deriving DecidableEq

/-- `Map` from the source: `pairs` is the shard table (each `atomic.Value`
cell together with the chain it anchors becomes one `List`), `length` the
`int64` size counter. -/
structure Map (T : Type) where
  pairs : List (List (keyValuePair T))
  length : Int
deriving DecidableEq

/-- `New(size)`: a shard table of `size` empty cells, counter zero. -/
def New (T : Type) (size : Nat) : Map T :=
  { pairs := List.replicate size [], length := 0 }

/-- The FNV-1 64-bit prime used by Go `hash/fnv.New64`. -/
def fnvPrime : Nat := 1099511628211

/-- The FNV-1 64-bit offset basis used by Go `hash/fnv.New64`. -/
def fnvOffsetBasis : Nat := 14695981039346656037

/-- Go `fnv.New64` fed the bytes of the key: FNV-1, i.e. per byte
multiply by the prime (mod 2^64) then xor the byte. -/
def fnv64 (bytes : List Nat) : Nat :=
  bytes.foldl (fun h b => (h * fnvPrime % 2 ^ 64) ^^^ b % 2 ^ 64) fnvOffsetBasis

variable {T : Type}

/-- `index` as written in `part_000`/`part_001`: a single-shard map routes
everything to 0, otherwise the sign-cleared hash (`& (1<<63 - 1)`, i.e.
`% 2^63`) is reduced modulo `len(m.pairs) - 1`. -/
def Map.index (m : Map T) (key : Key) : Nat :=
  if m.pairs.length = 1 then 0
  else fnv64 key % 2 ^ 63 % (m.pairs.length - 1)

/-- `index` as written in `map.go`, which lacks the single-shard guard: with
one shard the reduction is `% (len(m.pairs)-1)`, i.e. `% 0`, an integer
division by zero — a Go run-time panic, modelled as `none`.  (Modelled for
shard counts ≥ 1, the spec's precondition for construction.) -/
def indexNoGuard (numShards : Nat) (key : Key) : Option Nat :=
  if numShards = 1 then none
  else some (fnv64 key % 2 ^ 63 % (numShards - 1))

/-- The chain walk of `Store`: install at the first empty cell (fresh
insert, second component `true`), or overwrite the value of the first
entry whose key matches. -/
def storeLoop (key : Key) (value : T) :
    List (keyValuePair T) → List (keyValuePair T) × Bool
  | [] => ([⟨key, value⟩], true)
  | p :: rest =>
    if p.key = key then (⟨p.key, value⟩ :: rest, false)
    else
      let r := storeLoop key value rest
      (p :: r.1, r.2)

/-- `Store(key, value)`: route to the shard, run the chain walk, bump the
counter exactly when the walk installed a fresh entry. -/
def Map.Store (m : Map T) (key : Key) (value : T) : Map T :=
  let i := m.index key
  let r := storeLoop key value (m.pairs.getD i [])
  { pairs := m.pairs.set i r.1
    length := m.length + if r.2 then 1 else 0 }

/-- The chain walk of `Load`: value of the first matching entry.  Go's
`(nil, false)` / `(value, true)` pair is the `Option`. -/
def loadLoop (key : Key) : List (keyValuePair T) → Option T
  | [] => none
  | p :: rest => if p.key = key then some p.value else loadLoop key rest

/-- `Load(key)`: pure chain walk of the routed shard. -/
def Map.Load (m : Map T) (key : Key) : Option T :=
  loadLoop key (m.pairs.getD (m.index key) [])

/-- The chain walk of `LoadOrStore`: install at the first empty cell and
report `(value, true)`, or return the first matching entry's value with
`false`, changing nothing. -/
def loadOrStoreLoop (key : Key) (value : T) :
    List (keyValuePair T) → List (keyValuePair T) × T × Bool
  | [] => ([⟨key, value⟩], value, true)
  | p :: rest =>
    if p.key = key then (p :: rest, p.value, false)
    else
      let r := loadOrStoreLoop key value rest
      (p :: r.1, r.2)

/-- `LoadOrStore(key, value)`: result is (new map, returned value,
`inserted`); the counter is bumped exactly on insertion. -/
def Map.LoadOrStore (m : Map T) (key : Key) (value : T) :
    Map T × T × Bool :=
  let i := m.index key
  let r := loadOrStoreLoop key value (m.pairs.getD i [])
  ({ pairs := m.pairs.set i r.1
     length := m.length + if r.2.2 then 1 else 0 }, r.2)

/-- The chain walk of `LoadAndStore` (`part_000`/`part_001`): install at the
first empty cell and report `none` (Go `nil`), or overwrite the first
matching entry's value and report the old value. -/
def loadAndStoreLoop (key : Key) (value : T) :
    List (keyValuePair T) → List (keyValuePair T) × Option T
  | [] => ([⟨key, value⟩], none)
  | p :: rest =>
    if p.key = key then (⟨p.key, value⟩ :: rest, some p.value)
    else
      let r := loadAndStoreLoop key value rest
      (p :: r.1, r.2)

/-- `LoadAndStore(key, value)`: result is (new map, previous value or
`none`); the counter is bumped exactly when there was no previous value. -/
def Map.LoadAndStore (m : Map T) (key : Key) (value : T) :
    Map T × Option T :=
  let i := m.index key
  let r := loadAndStoreLoop key value (m.pairs.getD i [])
  ({ pairs := m.pairs.set i r.1
     length := m.length + if r.2.isNone then 1 else 0 }, r.2)

/-- The chain walk of `StoreNotExists` (`part_001`): install at the first
empty cell and report `true`, or report `false` on a key match, changing
nothing. -/
def storeNotExistsLoop (key : Key) (value : T) :
    List (keyValuePair T) → List (keyValuePair T) × Bool
  | [] => ([⟨key, value⟩], true)
  | p :: rest =>
    if p.key = key then (p :: rest, false)
    else
      let r := storeNotExistsLoop key value rest
      (p :: r.1, r.2)

/-- `StoreNotExists(key, value)`: result is (new map, `inserted`). -/
def Map.StoreNotExists (m : Map T) (key : Key) (value : T) :
    Map T × Bool :=
  let i := m.index key
  let r := storeNotExistsLoop key value (m.pairs.getD i [])
  ({ pairs := m.pairs.set i r.1
     length := m.length + if r.2 then 1 else 0 }, r.2)

/-- The interior walk of `Delete` in `part_000`/`part_001`, `pp` standing on
the entry before the sub-chain walked here.  When `pp.nextPair` holds
nothing (`nv == nil`), the code leaves `np` nil and still evaluates
`np.key` — a nil-pointer dereference, i.e. a run-time panic (`none`); the
`pv == nil` guard sits after that dereference and is unreachable.  On a key
match the pointer CAS from `pp.nextPair` to `np.nextPair` unlinks `np`
(in single-threaded semantics the CAS succeeds). -/
def deleteLoop (key : Key) :
    List (keyValuePair T) → Option (List (keyValuePair T) × Bool)
  | [] => none
  | np :: rest =>
    if np.key = key then some (rest, true)
    else (deleteLoop key rest).map fun r => (np :: r.1, r.2)

/-- `Delete`'s chain walk in `part_000`/`part_001`: empty shard reports
`false`; a head match CASes the shard slot over to `p.nextPair`; otherwise
the interior walk `deleteLoop` runs with the head as predecessor. -/
def deleteChain (key : Key) :
    List (keyValuePair T) → Option (List (keyValuePair T) × Bool)
  | [] => some ([], false)
  | p :: rest =>
    if p.key = key then some (rest, true)
    else (deleteLoop key rest).map fun r => (p :: r.1, r.2)

/-- `Delete(key)` of `part_000`/`part_001` (raw-pointer CAS): (new map,
`removed`), or `none` when the walk panics; the counter is decremented
exactly on removal. -/
def Map.Delete (m : Map T) (key : Key) : Option (Map T × Bool) :=
  let i := m.index key
  (deleteChain key (m.pairs.getD i [])).map fun r =>
    ({ pairs := m.pairs.set i r.1
       length := m.length + if r.2 then -1 else 0 }, r.2)

/-- The interior walk of `Delete` in `map.go`: reaching the end of the
chain (`v == nil`) cleanly reports `false`, but a key match executes
`pre.CompareAndSwap(current, p.nextPair)` whose new value is a
`*atomic.Value` while the cell `pre` holds a `*keyValuePair` —
`sync/atomic.Value.CompareAndSwap` panics on an inconsistently typed
value, modelled as `none`. -/
def deleteAVLoop (key : Key) :
    List (keyValuePair T) → Option (List (keyValuePair T) × Bool)
  | [] => some ([], false)
  | p :: rest =>
    if p.key = key then none
    else (deleteAVLoop key rest).map fun r => (p :: r.1, r.2)

/-- `Delete`'s chain walk in `map.go`: a head match executes
`m.pairs[i].CompareAndSwap(p, p.nextPair.Load())`; when the head is the
sole entry the new value is `nil`, and `atomic.Value.CompareAndSwap`
panics on a nil new value (`none`); with a successor the CAS succeeds and
the successor entry becomes the cell's content. -/
def deleteAVChain (key : Key) :
    List (keyValuePair T) → Option (List (keyValuePair T) × Bool)
  | [] => some ([], false)
  | p :: rest =>
    if p.key = key then
      match rest with
      | [] => none
      | q :: tl => some (q :: tl, true)
    else (deleteAVLoop key rest).map fun r => (p :: r.1, r.2)

/-- `Delete(key)` of `map.go`: routed through `map.go`'s own unguarded
`index`, then `deleteAVChain`; `none` is a panic of either. -/
def Map.DeleteAV (m : Map T) (key : Key) : Option (Map T × Bool) :=
  (indexNoGuard m.pairs.length key).bind fun i =>
    (deleteAVChain key (m.pairs.getD i [])).map fun r =>
      ({ pairs := m.pairs.set i r.1
         length := m.length + if r.2 then -1 else 0 }, r.2)

/-- The chain walk of `Range`: pairs passed to `f`, in chain order, and
whether the walk ran off the end (`true`) or `f` signalled stop
(`false`); the pair on which `f` signals stop has still been visited. -/
def rangeLoop (f : Key → T → Bool) :
    List (keyValuePair T) → List (Key × T) × Bool
  | [] => ([], true)
  | p :: rest =>
    if f p.key p.value then
      let r := rangeLoop f rest
      ((p.key, p.value) :: r.1, r.2)
    else ([(p.key, p.value)], false)

/-- The shard loop of `Range`: shard cells in slice order; a stop signal
inside a chain ends the whole traversal. -/
def rangeShards (f : Key → T → Bool) :
    List (List (keyValuePair T)) → List (Key × T)
  | [] => []
  | c :: cs =>
    let r := rangeLoop f c
    if r.2 then r.1 ++ rangeShards f cs else r.1

/-- `Range(f)`, recorded as the list of (key, value) pairs passed to `f`,
in call order. -/
def Map.Range (m : Map T) (f : Key → T → Bool) : List (Key × T) :=
  rangeShards f m.pairs

/-- `Length()`: the raw counter. -/
def Map.Length (m : Map T) : Int := m.length

/-- The (key, value) pairs of one chain, head first. -/
def chainPairs (c : List (keyValuePair T)) : List (Key × T) :=
  c.map fun p => (p.key, p.value)

/-- All stored pairs in shard order 0..N-1, each shard head to end. -/
def Map.allPairs (m : Map T) : List (Key × T) :=
  (m.pairs.map chainPairs).flatten

/-- Spec-side description of `Range`'s visit sequence: walk the pairs in
order and cut the traversal right after the first pair the visitor
rejects. -/
def visitUpToStop (f : Key → T → Bool) : List (Key × T) → List (Key × T)
  | [] => []
  | (k, v) :: rest =>
    if f k v then (k, v) :: visitUpToStop f rest else [(k, v)]

/-- The keys of a chain, head first. -/
def chainKeys (c : List (keyValuePair T)) : List Key :=
  c.map keyValuePair.key

/-- The duplicate-freedom invariant of the data model: within any one
shard's chain, no two entries have the same key. -/
def Inv (m : Map T) : Prop :=
  ∀ c ∈ m.pairs, (chainKeys c).Nodup

instance (m : Map T) : Decidable (Inv m) :=
  inferInstanceAs (Decidable (∀ c ∈ m.pairs, (chainKeys c).Nodup))

/-! ### List helpers -/

lemma getD_set_self {α : Type} (l : List α) :
    ∀ (i : Nat) (a d : α), i < l.length → (l.set i a).getD i d = a := by
  induction l with
  | nil => intro i a d h; simp at h
  | cons x xs ih =>
    intro i a d h
    cases i with
    | zero => simp
    | succ j => simpa using ih j a d (by simpa using h)

lemma getD_set_ne {α : Type} (l : List α) :
    ∀ (i j : Nat) (a d : α), i ≠ j → (l.set i a).getD j d = l.getD j d := by
  induction l with
  | nil => intro i j a d _; simp
  | cons x xs ih =>
    intro i j a d h
    cases i with
    | zero =>
      cases j with
      | zero => exact absurd rfl h
      | succ j2 => simp
    | succ i2 =>
      cases j with
      | zero => simp
      | succ j2 => simpa using ih i2 j2 a d (by omega)

lemma set_getD_self {α : Type} (l : List α) :
    ∀ (i : Nat) (d : α), i < l.length → l.set i (l.getD i d) = l := by
  induction l with
  | nil => intro i d h; simp at h
  | cons x xs ih =>
    intro i d h
    cases i with
    | zero => simp
    | succ j => simpa using ih j d (by simpa using h)

lemma mem_of_mem_set {α : Type} {a x : α} :
    ∀ {l : List α} {i : Nat}, x ∈ l.set i a → x = a ∨ x ∈ l := by
  intro l
  induction l with
  | nil => intro i h; simp at h
  | cons y ys ih =>
    intro i h
    cases i with
    | zero =>
      rcases (by simpa using h : x = a ∨ x ∈ ys) with h1 | h1
      · exact Or.inl h1
      · exact Or.inr (List.mem_cons_of_mem _ h1)
    | succ j =>
      rcases (by simpa using h : x = y ∨ x ∈ ys.set j a) with h1 | h1
      · exact Or.inr (h1 ▸ List.mem_cons_self _ _)
      · rcases ih h1 with h2 | h2
        · exact Or.inl h2
        · exact Or.inr (List.mem_cons_of_mem _ h2)

lemma getD_eq_or_mem {α : Type} (l : List α) :
    ∀ (i : Nat) (d : α), l.getD i d = d ∨ l.getD i d ∈ l := by
  induction l with
  | nil => intro i d; simp
  | cons x xs ih =>
    intro i d
    cases i with
    | zero => simp
    | succ j =>
      rcases ih j d with h | h
      · simpa using Or.inl h
      · simpa using Or.inr (Or.inr h)

/-! ### Chain-level lemmas -/

lemma loadLoop_storeLoop_self (key : Key) (v : T) (c : List (keyValuePair T)) :
    loadLoop key (storeLoop key v c).1 = some v := by
  induction c with
  | nil => simp [storeLoop, loadLoop]
  | cons p rest ih =>
    by_cases h : p.key = key
    · simp [storeLoop, loadLoop, h]
    · simp [storeLoop, loadLoop, h, ih]

@[simp] lemma chainKeys_nil : chainKeys ([] : List (keyValuePair T)) = [] := rfl

@[simp] lemma chainKeys_cons (p : keyValuePair T) (rest : List (keyValuePair T)) :
    chainKeys (p :: rest) = p.key :: chainKeys rest := rfl

@[simp] lemma chainPairs_nil : chainPairs ([] : List (keyValuePair T)) = [] := rfl

@[simp] lemma chainPairs_cons (p : keyValuePair T) (rest : List (keyValuePair T)) :
    chainPairs (p :: rest) = (p.key, p.value) :: chainPairs rest := rfl

lemma loadLoop_storeLoop_ne {k2 key : Key} (h : k2 ≠ key) (v : T)
    (c : List (keyValuePair T)) :
    loadLoop k2 (storeLoop key v c).1 = loadLoop k2 c := by
  have hne : ¬ key = k2 := fun hh => h hh.symm
  induction c with
  | nil => simp [storeLoop, loadLoop, hne]
  | cons p rest ih =>
    by_cases hp : p.key = key
    · simp [storeLoop, loadLoop, hp, hne]
    · simp [storeLoop, loadLoop, hp, ih]

lemma storeLoop_snd (key : Key) (v : T) (c : List (keyValuePair T)) :
    (storeLoop key v c).2 = (loadLoop key c).isNone := by
  induction c with
  | nil => simp [storeLoop, loadLoop]
  | cons p rest ih =>
    by_cases h : p.key = key
    · simp [storeLoop, loadLoop, h]
    · simp [storeLoop, loadLoop, h, ih]

lemma loadLoop_eq_none (key : Key) (c : List (keyValuePair T)) :
    loadLoop key c = none ↔ key ∉ chainKeys c := by
  induction c with
  | nil => simp [loadLoop]
  | cons p rest ih =>
    by_cases h : p.key = key
    · simp [loadLoop, h]
    · have hne : ¬ key = p.key := fun hh => h hh.symm
      simp [loadLoop, h, hne, ih]

lemma chainKeys_storeLoop (key : Key) (v : T) (c : List (keyValuePair T)) :
    chainKeys (storeLoop key v c).1 =
      if key ∈ chainKeys c then chainKeys c else chainKeys c ++ [key] := by
  induction c with
  | nil => simp [storeLoop]
  | cons p rest ih =>
    by_cases h : p.key = key
    · simp [storeLoop, h]
    · have hne : ¬ key = p.key := fun hh => h hh.symm
      by_cases hmem : key ∈ chainKeys rest
      · simp [storeLoop, h, hmem, hne, ih]
      · simp [storeLoop, h, hmem, hne, ih]

lemma loadOrStoreLoop_found {key : Key} {c : List (keyValuePair T)} {u : T}
    (h : loadLoop key c = some u) (v : T) :
    loadOrStoreLoop key v c = (c, u, false) := by
  induction c with
  | nil => simp [loadLoop] at h
  | cons p rest ih =>
    by_cases hp : p.key = key
    · simp [loadLoop, hp] at h
      simp [loadOrStoreLoop, hp, h]
    · simp [loadLoop, hp] at h
      simp [loadOrStoreLoop, hp, ih h]

lemma loadOrStoreLoop_absent {key : Key} {c : List (keyValuePair T)}
    (h : loadLoop key c = none) (v : T) :
    loadOrStoreLoop key v c = (c ++ [⟨key, v⟩], v, true) := by
  induction c with
  | nil => simp [loadOrStoreLoop]
  | cons p rest ih =>
    by_cases hp : p.key = key
    · simp [loadLoop, hp] at h
    · simp [loadLoop, hp] at h
      simp [loadOrStoreLoop, hp, ih h]

lemma loadLoop_append_self {key : Key} {c : List (keyValuePair T)}
    (h : loadLoop key c = none) (v : T) :
    loadLoop key (c ++ [⟨key, v⟩]) = some v := by
  induction c with
  | nil => simp [loadLoop]
  | cons p rest ih =>
    by_cases hp : p.key = key
    · simp [loadLoop, hp] at h
    · simp [loadLoop, hp] at h
      simp [loadLoop, hp, ih h]

lemma chainKeys_loadOrStoreLoop (key : Key) (v : T) (c : List (keyValuePair T)) :
    chainKeys (loadOrStoreLoop key v c).1 =
      if key ∈ chainKeys c then chainKeys c else chainKeys c ++ [key] := by
  induction c with
  | nil => simp [loadOrStoreLoop]
  | cons p rest ih =>
    by_cases h : p.key = key
    · simp [loadOrStoreLoop, h]
    · have hne : ¬ key = p.key := fun hh => h hh.symm
      by_cases hmem : key ∈ chainKeys rest
      · simp [loadOrStoreLoop, h, hmem, hne, ih]
      · simp [loadOrStoreLoop, h, hmem, hne, ih]

lemma loadAndStoreLoop_eq (key : Key) (v : T) (c : List (keyValuePair T)) :
    loadAndStoreLoop key v c = ((storeLoop key v c).1, loadLoop key c) := by
  induction c with
  | nil => simp [loadAndStoreLoop, storeLoop, loadLoop]
  | cons p rest ih =>
    by_cases h : p.key = key
    · simp [loadAndStoreLoop, storeLoop, loadLoop, h]
    · simp [loadAndStoreLoop, storeLoop, loadLoop, h, ih]

lemma chainKeys_storeNotExistsLoop (key : Key) (v : T) (c : List (keyValuePair T)) :
    chainKeys (storeNotExistsLoop key v c).1 =
      if key ∈ chainKeys c then chainKeys c else chainKeys c ++ [key] := by
  induction c with
  | nil => simp [storeNotExistsLoop]
  | cons p rest ih =>
    by_cases h : p.key = key
    · simp [storeNotExistsLoop, h]
    · have hne : ¬ key = p.key := fun hh => h hh.symm
      by_cases hmem : key ∈ chainKeys rest
      · simp [storeNotExistsLoop, h, hmem, hne, ih]
      · simp [storeNotExistsLoop, h, hmem, hne, ih]

lemma deleteLoop_sublist {key : Key} :
    ∀ {c : List (keyValuePair T)} {r}, deleteLoop key c = some r →
      r.1.Sublist c := by
  intro c
  induction c with
  | nil => intro r h; simp [deleteLoop] at h
  | cons np rest ih =>
    intro r h
    by_cases hp : np.key = key
    · simp [deleteLoop, hp] at h
      subst h
      exact List.sublist_cons_self np rest
    · simp only [deleteLoop, if_neg hp] at h
      obtain ⟨⟨r0, b0⟩, hr0, hr⟩ := Option.map_eq_some'.mp h
      cases hr
      exact List.Sublist.cons₂ np (ih hr0)

lemma deleteChain_sublist {key : Key} {c : List (keyValuePair T)} {r}
    (h : deleteChain key c = some r) : r.1.Sublist c := by
  cases c with
  | nil =>
    simp [deleteChain] at h
    subst h
    exact List.Sublist.refl []
  | cons p rest =>
    by_cases hp : p.key = key
    · simp [deleteChain, hp] at h
      subst h
      exact List.sublist_cons_self p rest
    · simp only [deleteChain, if_neg hp] at h
      obtain ⟨⟨r0, b0⟩, hr0, hr⟩ := Option.map_eq_some'.mp h
      cases hr
      exact List.Sublist.cons₂ p (deleteLoop_sublist hr0)

lemma deleteLoop_found {key : Key} :
    ∀ {c : List (keyValuePair T)}, (chainKeys c).Nodup →
      (loadLoop key c).isSome →
      ∃ c2, deleteLoop key c = some (c2, true) ∧ loadLoop key c2 = none := by
  intro c
  induction c with
  | nil => intro _ hs; simp [loadLoop] at hs
  | cons np rest ih =>
    intro hnd hs
    by_cases hp : np.key = key
    · refine ⟨rest, by simp [deleteLoop, hp], ?_⟩
      have : key ∉ chainKeys rest := by
        have := (List.nodup_cons.mp (by simpa using hnd)).1
        exact hp ▸ this
      exact (loadLoop_eq_none key rest).mpr this
    · have hs2 : (loadLoop key rest).isSome := by
        simpa [loadLoop, hp] using hs
      have hnd2 : (chainKeys rest).Nodup :=
        (List.nodup_cons.mp (by simpa using hnd)).2
      obtain ⟨c2, hdel, hload⟩ := ih hnd2 hs2
      exact ⟨np :: c2, by simp [deleteLoop, hp, hdel], by simp [loadLoop, hp, hload]⟩

lemma deleteChain_found {key : Key} {c : List (keyValuePair T)}
    (hnd : (chainKeys c).Nodup) (hs : (loadLoop key c).isSome) :
    ∃ c2, deleteChain key c = some (c2, true) ∧ loadLoop key c2 = none := by
  cases c with
  | nil => simp [loadLoop] at hs
  | cons p rest =>
    by_cases hp : p.key = key
    · refine ⟨rest, by simp [deleteChain, hp], ?_⟩
      have : key ∉ chainKeys rest := by
        have := (List.nodup_cons.mp (by simpa using hnd)).1
        exact hp ▸ this
      exact (loadLoop_eq_none key rest).mpr this
    · have hs2 : (loadLoop key rest).isSome := by
        simpa [loadLoop, hp] using hs
      have hnd2 : (chainKeys rest).Nodup :=
        (List.nodup_cons.mp (by simpa using hnd)).2
      obtain ⟨c2, hdel, hload⟩ := deleteLoop_found hnd2 hs2
      exact ⟨p :: c2, by simp [deleteChain, hp, hdel], by simp [loadLoop, hp, hload]⟩

lemma storeLoop_absent {key : Key} {c : List (keyValuePair T)}
    (h : loadLoop key c = none) (v : T) :
    storeLoop key v c = (c ++ [⟨key, v⟩], true) := by
  induction c with
  | nil => simp [storeLoop]
  | cons p rest ih =>
    by_cases hp : p.key = key
    · simp [loadLoop, hp] at h
    · simp [loadLoop, hp] at h
      simp [storeLoop, hp, ih h]

/-! ### Map-level lemmas -/

lemma index_lt (m : Map T) (key : Key) (h : 1 ≤ m.pairs.length) :
    m.index key < m.pairs.length := by
  by_cases h1 : m.pairs.length = 1
  · simp [Map.index, h1]
  · have : fnv64 key % 2 ^ 63 % (m.pairs.length - 1) < m.pairs.length - 1 :=
      Nat.mod_lt _ (by omega)
    simp only [Map.index, if_neg h1]
    omega

lemma store_pairs_length (m : Map T) (key : Key) (v : T) :
    (m.Store key v).pairs.length = m.pairs.length := by
  simp [Map.Store]

lemma index_pairs_congr {m1 m2 : Map T} (h : m1.pairs.length = m2.pairs.length)
    (key : Key) : m1.index key = m2.index key := by
  simp [Map.index, h]

lemma load_store_self (m : Map T) (key : Key) (v : T)
    (hN : 1 ≤ m.pairs.length) : (m.Store key v).Load key = some v := by
  have hip : m.index key < m.pairs.length := index_lt m key hN
  have hidx : (m.Store key v).index key = m.index key :=
    index_pairs_congr (store_pairs_length m key v) key
  show loadLoop key ((m.Store key v).pairs.getD ((m.Store key v).index key) [])
      = some v
  rw [hidx]
  have hpairs : (m.Store key v).pairs = m.pairs.set (m.index key)
      (storeLoop key v (m.pairs.getD (m.index key) [])).1 := by
    simp [Map.Store]
  rw [hpairs, getD_set_self _ _ _ _ hip, loadLoop_storeLoop_self]

lemma load_store_ne (m : Map T) {k2 key : Key} (h : k2 ≠ key) (v : T)
    (hN : 1 ≤ m.pairs.length) : (m.Store key v).Load k2 = m.Load k2 := by
  have hip : m.index key < m.pairs.length := index_lt m key hN
  have hidx : (m.Store key v).index k2 = m.index k2 :=
    index_pairs_congr (store_pairs_length m key v) k2
  show loadLoop k2 ((m.Store key v).pairs.getD ((m.Store key v).index k2) [])
      = loadLoop k2 (m.pairs.getD (m.index k2) [])
  rw [hidx]
  have hpairs : (m.Store key v).pairs = m.pairs.set (m.index key)
      (storeLoop key v (m.pairs.getD (m.index key) [])).1 := by
    simp [Map.Store]
  rw [hpairs]
  by_cases hii : m.index k2 = m.index key
  · rw [hii, getD_set_self _ _ _ _ hip, loadLoop_storeLoop_ne h]
  · rw [getD_set_ne _ _ _ _ _ (fun hh => hii hh.symm)]

lemma store_length (m : Map T) (key : Key) (v : T) :
    (m.Store key v).length = m.length + if (m.Load key).isNone then 1 else 0 := by
  simp only [Map.Store, Map.Load]
  rw [storeLoop_snd]

lemma load_new (n : Nat) (key : Key) : (New T n).Load key = none := by
  show loadLoop key ((List.replicate n ([] : List (keyValuePair T))).getD
    ((New T n).index key) []) = none
  rcases getD_eq_or_mem (List.replicate n ([] : List (keyValuePair T)))
      ((New T n).index key) [] with h | h
  · rw [h]; rfl
  · rw [List.eq_of_mem_replicate h]; rfl

lemma loadOrStore_absent_map (m : Map T) (key : Key) (v : T)
    (habs : m.Load key = none) :
    m.LoadOrStore key v = (m.Store key v, v, true) := by
  have habs2 : loadLoop key (m.pairs.getD (m.index key) []) = none := habs
  simp only [Map.LoadOrStore, Map.Store]
  rw [loadOrStoreLoop_absent habs2 v, storeLoop_absent habs2 v]

lemma loadOrStore_found_map (m : Map T) (key : Key) (v u : T)
    (hN : 1 ≤ m.pairs.length) (hfound : m.Load key = some u) :
    m.LoadOrStore key v = (m, u, false) := by
  have hip : m.index key < m.pairs.length := index_lt m key hN
  have hfound2 : loadLoop key (m.pairs.getD (m.index key) []) = some u := hfound
  simp only [Map.LoadOrStore, loadOrStoreLoop_found hfound2 v]
  rw [set_getD_self _ _ _ hip]
  simp

lemma loadAndStore_fst (m : Map T) (key : Key) (v : T) :
    (m.LoadAndStore key v).1 = m.Store key v := by
  simp only [Map.LoadAndStore, Map.Store, loadAndStoreLoop_eq]
  rw [storeLoop_snd]

lemma loadAndStore_snd (m : Map T) (key : Key) (v : T) :
    (m.LoadAndStore key v).2 = m.Load key := by
  simp [Map.LoadAndStore, Map.Load, loadAndStoreLoop_eq]

lemma delete_present (m : Map T) (key : Key) (hN : 1 ≤ m.pairs.length)
    (hnd : (chainKeys (m.pairs.getD (m.index key) [])).Nodup)
    (hs : (m.Load key).isSome) :
    ∃ m2, m.Delete key = some (m2, true) ∧ m2.length = m.length - 1 ∧
      m2.Load key = none := by
  have hip : m.index key < m.pairs.length := index_lt m key hN
  have hs2 : (loadLoop key (m.pairs.getD (m.index key) [])).isSome := hs
  obtain ⟨c2, hdel, hload⟩ := deleteChain_found hnd hs2
  refine ⟨⟨m.pairs.set (m.index key) c2, m.length + -1⟩, ?_, ?_, ?_⟩
  · simp only [Map.Delete]
    rw [hdel]
    rfl
  · show m.length + -1 = m.length - 1
    omega
  · show loadLoop key ((m.pairs.set (m.index key) c2).getD
      ((Map.mk (m.pairs.set (m.index key) c2) (m.length + -1)).index key) []) = none
    have hidx : (Map.mk (m.pairs.set (m.index key) c2) (m.length + -1)).index key
        = m.index key := index_pairs_congr (by simp) key
    rw [hidx, getD_set_self _ _ _ _ hip, hload]

/-- A single-threaded sequence of `Store` calls, first element first. -/
def storeAll (m : Map T) (kvs : List (Key × T)) : Map T :=
  kvs.foldl (fun acc kv => acc.Store kv.1 kv.2) m

lemma storeAll_length :
    ∀ (kvs : List (Key × T)) (m : Map T), 1 ≤ m.pairs.length →
      (kvs.map Prod.fst).Nodup → (∀ kv ∈ kvs, m.Load kv.1 = none) →
      (storeAll m kvs).length = m.length + kvs.length := by
  intro kvs
  induction kvs with
  | nil => intro m _ _ _; simp [storeAll]
  | cons kv rest ih =>
    intro m hN hnd hload
    have hLoadHead : m.Load kv.1 = none := hload kv (List.mem_cons_self _ _)
    have hlen1 : (m.Store kv.1 kv.2).length = m.length + 1 := by
      rw [store_length]; simp [hLoadHead]
    have hN1 : 1 ≤ (m.Store kv.1 kv.2).pairs.length := by
      rw [store_pairs_length]; exact hN
    have hnd1 : (rest.map Prod.fst).Nodup := (List.nodup_cons.mp hnd).2
    have hmem : kv.1 ∉ rest.map Prod.fst := (List.nodup_cons.mp hnd).1
    have hload1 : ∀ kv2 ∈ rest, (m.Store kv.1 kv.2).Load kv2.1 = none := by
      intro kv2 hkv2
      have hne : kv2.1 ≠ kv.1 :=
        fun hh => hmem (hh ▸ List.mem_map_of_mem Prod.fst hkv2)
      rw [load_store_ne m hne kv.2 hN]
      exact hload kv2 (List.mem_cons_of_mem _ hkv2)
    have hfold : storeAll m (kv :: rest) = storeAll (m.Store kv.1 kv.2) rest := rfl
    rw [hfold, ih _ hN1 hnd1 hload1, hlen1]
    simp only [List.length_cons]
    push_cast
    ring

/-- Soundness of the duplicate-freedom invariant under a single-shard
rewrite: updating shard `i` preserves `Inv` whenever the new chain keeps
duplicate-free keys given that the old chain had them. -/
lemma inv_set {m : Map T} (hm : Inv m) (i : Nat)
    {c2 : List (keyValuePair T)} (n : Int)
    (h : (chainKeys (m.pairs.getD i [])).Nodup → (chainKeys c2).Nodup) :
    Inv (Map.mk (m.pairs.set i c2) n) := by
  intro c hc
  rcases mem_of_mem_set hc with rfl | hcm
  · apply h
    rcases getD_eq_or_mem m.pairs i [] with hd | hd
    · rw [hd]; simp
    · exact hm _ hd
  · exact hm _ hcm

lemma nodup_if_keys {ck : List Key} {key : Key} (hnd : ck.Nodup) :
    (if key ∈ ck then ck else ck ++ [key]).Nodup := by
  by_cases h : key ∈ ck
  · simpa [h] using hnd
  · simp [h, List.nodup_append, hnd]

/-! ### Range lemmas -/

lemma rangeLoop_spec (f : Key → T → Bool) :
    ∀ (c : List (keyValuePair T)) (L : List (Key × T)),
      (if (rangeLoop f c).2 then (rangeLoop f c).1 ++ visitUpToStop f L
        else (rangeLoop f c).1) = visitUpToStop f (chainPairs c ++ L) := by
  intro c
  induction c with
  | nil => intro L; simp [rangeLoop]
  | cons p rest ih =>
    intro L
    by_cases hf : f p.key p.value
    · cases hb : (rangeLoop f rest).2 <;>
        (have h := ih L; rw [hb] at h; simp [chainPairs] at h;
         simp [rangeLoop, visitUpToStop, chainPairs, hf, hb, h])
    · simp [rangeLoop, visitUpToStop, hf]

lemma rangeShards_eq (f : Key → T → Bool) :
    ∀ cs : List (List (keyValuePair T)),
      rangeShards f cs = visitUpToStop f ((cs.map chainPairs).flatten) := by
  intro cs
  induction cs with
  | nil => simp [rangeShards, visitUpToStop]
  | cons c cs2 ih =>
    show (if (rangeLoop f c).2 then (rangeLoop f c).1 ++ rangeShards f cs2
      else (rangeLoop f c).1) = _
    rw [ih]
    simpa using rangeLoop_spec f c ((cs2.map chainPairs).flatten)

lemma visitUpToStop_true :
    ∀ L : List (Key × T), visitUpToStop (fun _ _ => true) L = L := by
  intro L
  induction L with
  | nil => rfl
  | cons p rest ih => cases p; simp [visitUpToStop, ih]

/-! ### Claims -/

/-- Claim C1: with more than one shard, the hash router reduces the
sign-cleared hash modulo N-1, so `index` is always strictly below N-1 and
in particular never equals the last shard index N-1 — the last shard slot
is never selected by any operation. -/
theorem index_never_selects_last_shard (T : Type) (m : Map T) (key : Key)
    (h : 1 < m.pairs.length) :
    m.index key < m.pairs.length - 1 ∧ m.index key ≠ m.pairs.length - 1 := by
  have h1 : m.pairs.length ≠ 1 := by omega
  have hlt : fnv64 key % 2 ^ 63 % (m.pairs.length - 1) < m.pairs.length - 1 :=
    Nat.mod_lt _ (by omega)
  simp only [Map.index, if_neg h1]
  exact ⟨hlt, Nat.ne_of_lt hlt⟩

/-- Witness for C1 at a concrete map of four shards. -/
theorem index_never_selects_last_shard_witness :
    1 < (New Nat 4).pairs.length ∧
      (New Nat 4).index [] ≠ (New Nat 4).pairs.length - 1 :=
  ⟨by decide, (index_never_selects_last_shard Nat (New Nat 4) [] (by decide)).2⟩

/-- Claim C2 (code bug): `map.go`'s `index` reduces modulo
`len(m.pairs) - 1`, which at shard count 1 is a division by zero — a Go
run-time panic (`none`), so operations on a 1-shard map abort instead of
terminating normally.  The `part_000`/`part_001` variant guards
`len(m.pairs) == 1` and is total: with it, a 1-shard map routes every key
to shard 0 and the operations behave as the claim states. -/
theorem index_single_shard_divide_by_zero :
    indexNoGuard 1 [97] = none ∧ (New Nat 1).index [97] = 0 ∧
      ((New Nat 1).Store [97] 5).Load [97] = some 5 :=
  ⟨rfl, by decide, by decide⟩

/-- Claim C3 (code bug): deleting a present key with `map.go`'s
`atomic.Value`-based `Delete` panics when the entry is the sole entry of
its chain (`CompareAndSwap(p, nil)`: nil new value) and when it is an
interior entry (`pre.CompareAndSwap(current, p.nextPair)`: inconsistently
typed new value), modelled by `DeleteAV` returning `none`; the
`part_000`/`part_001` pointer-CAS `Delete` does behave as the claim
states: it returns `true`, decrements the counter, and a subsequent
`Load` misses. -/
theorem delete_present_atomic_value_variant_panics :
    ((New Nat 2).Store [97] 1).DeleteAV [97] = none ∧
    (((New Nat 2).Store [97] 1).Store [98] 2).DeleteAV [98] = none ∧
    ((New Nat 2).Store [97] 1).Delete [97]
      = some ({ pairs := [[], []], length := 0 }, true) ∧
    (((New Nat 2).Store [97] 1).Store [98] 2).Delete [98]
      = some ({ pairs := [[{ key := [97], value := 1 }], []], length := 1 }, true) :=
  ⟨by decide, by decide, by decide, by decide⟩

/-- Claim C4 (code bug): deleting an absent key with the
`part_000`/`part_001` `Delete` dereferences a nil pointer (`np.key` with
`np == nil`) whenever the routed chain is non-empty and its head does not
match, so the call panics (`none`) instead of returning `false`;
`map.go`'s `Delete` does return `false` and leaves the map unchanged on
the same input. -/
theorem delete_absent_pointer_variant_panics :
    ((New Nat 2).Store [97] 1).Delete [98] = none ∧
    ((New Nat 2).Store [97] 1).DeleteAV [98]
      = some ({ pairs := [[{ key := [97], value := 1 }], []], length := 1 }, false) :=
  ⟨by decide, by decide⟩

/-- Claim C5: in a single-threaded sequence, a `Load` of key `k` after a
`Store(k, v)` — whatever the prior state of the map, in particular after
any earlier stores to `k` — returns the most recently stored value `v`
with found = true (`some v`). -/
theorem store_then_load_returns_latest (T : Type) (m : Map T) (key : Key)
    (v : T) (hN : 1 ≤ m.pairs.length) : (m.Store key v).Load key = some v :=
  load_store_self m key v hN

/-- Witness for C5 on a concrete 1-shard map. -/
theorem store_then_load_returns_latest_witness :
    1 ≤ (New Nat 1).pairs.length ∧
      (((New Nat 1).Store [] 6).Store [] 7).Load [] = some 7 :=
  ⟨by decide,
    store_then_load_returns_latest Nat ((New Nat 1).Store [] 6) [] 7 (by decide)⟩

/-- Claim C6: `LoadOrStore(k, v)` on an absent key inserts `k` with value
`v` and returns (v, true); a second `LoadOrStore(k, w)` then returns
(v, false) and leaves the whole map — stored values and all — unchanged. -/
theorem loadOrStore_insert_once (T : Type) (m : Map T) (key : Key) (v w : T)
    (hN : 1 ≤ m.pairs.length) (habs : m.Load key = none) :
    (m.LoadOrStore key v).2.1 = v ∧ (m.LoadOrStore key v).2.2 = true ∧
    (m.LoadOrStore key v).1.Load key = some v ∧
    ((m.LoadOrStore key v).1.LoadOrStore key w).2.1 = v ∧
    ((m.LoadOrStore key v).1.LoadOrStore key w).2.2 = false ∧
    ((m.LoadOrStore key v).1.LoadOrStore key w).1 = (m.LoadOrStore key v).1 := by
  rw [loadOrStore_absent_map m key v habs]
  have hfound : (m.Store key v).Load key = some v := load_store_self m key v hN
  have hN1 : 1 ≤ (m.Store key v).pairs.length := by
    rw [store_pairs_length]; exact hN
  rw [loadOrStore_found_map (m.Store key v) key w v hN1 hfound]
  exact ⟨rfl, rfl, hfound, rfl, rfl, rfl⟩

/-- Witness for C6 on a concrete 1-shard map. -/
theorem loadOrStore_insert_once_witness :
    (1 ≤ (New Nat 1).pairs.length ∧ (New Nat 1).Load [] = none) ∧
    ((New Nat 1).LoadOrStore [] 3).2.1 = 3 ∧
    (((New Nat 1).LoadOrStore [] 3).1.LoadOrStore [] 9).2.2 = false :=
  ⟨⟨by decide, by decide⟩,
    (loadOrStore_insert_once Nat (New Nat 1) [] 3 9 (by decide) (by decide)).1,
    (loadOrStore_insert_once Nat (New Nat 1) [] 3 9 (by decide) (by decide)).2.2.2.2.1⟩

/-- Claim C7: `LoadAndStore(k, v)` is an unconditional swap: it returns
the prior value of `k` (`none` when `k` was absent), afterwards `Load(k)`
yields `v`, the counter grows by one exactly when `k` was absent, and no
other key's binding changes. -/
theorem loadAndStore_unconditional_swap (T : Type) (m : Map T) (key : Key)
    (v : T) (hN : 1 ≤ m.pairs.length) :
    (m.LoadAndStore key v).2 = m.Load key ∧
    (m.LoadAndStore key v).1.Load key = some v ∧
    (m.LoadAndStore key v).1.length
      = m.length + (if (m.Load key).isSome then 0 else 1) ∧
    ∀ k2, k2 ≠ key → (m.LoadAndStore key v).1.Load k2 = m.Load k2 := by
  refine ⟨loadAndStore_snd m key v, ?_, ?_, ?_⟩
  · rw [loadAndStore_fst]
    exact load_store_self m key v hN
  · rw [loadAndStore_fst, store_length]
    cases m.Load key <;> simp
  · intro k2 hk2
    rw [loadAndStore_fst]
    exact load_store_ne m hk2 v hN

/-- Witness for C7 on a concrete 1-shard map. -/
theorem loadAndStore_unconditional_swap_witness :
    1 ≤ (New Nat 1).pairs.length ∧
      ((New Nat 1).LoadAndStore [] 5).2 = (New Nat 1).Load [] :=
  ⟨by decide, (loadAndStore_unconditional_swap Nat (New Nat 1) [] 5 (by decide)).1⟩

/-- Claim C8: starting from a freshly constructed map with at least one
shard, storing N pairwise-distinct keys (no deletes) leaves `Length()`
equal to N. -/
theorem length_counts_distinct_stores (T : Type) (n : Nat)
    (kvs : List (Key × T)) (hn : 1 ≤ n) (hnd : (kvs.map Prod.fst).Nodup) :
    (storeAll (New T n) kvs).Length = kvs.length := by
  have hN : 1 ≤ (New T n).pairs.length := by
    show 1 ≤ (List.replicate n ([] : List (keyValuePair T))).length
    simpa using hn
  have hload : ∀ kv ∈ kvs, (New T n).Load kv.1 = none :=
    fun kv _ => load_new n kv.1
  show (storeAll (New T n) kvs).length = (kvs.length : Int)
  rw [storeAll_length kvs _ hN hnd hload]
  show (0 : Int) + kvs.length = kvs.length
  omega

/-- Witness for C8: two distinct keys stored in a fresh 1-shard map. -/
theorem length_counts_distinct_stores_witness :
    (1 ≤ 1 ∧ (([([], 1), ([97], 2)] : List (Key × Nat)).map Prod.fst).Nodup) ∧
      (storeAll (New Nat 1) [([], 1), ([97], 2)]).Length = 2 :=
  ⟨⟨by decide, by decide⟩,
    length_counts_distinct_stores Nat 1 [([], 1), ([97], 2)] (by decide) (by decide)⟩

/-- Claim C9: `Range` visits exactly the stored pairs in shard order
0..N-1, each shard's chain from head to end, cut right after the first
pair on which the visitor signals stop; with a never-stopping visitor it
visits every stored pair exactly once in that order. -/
theorem range_visits_in_shard_chain_order (T : Type) (m : Map T)
    (f : Key → T → Bool) :
    m.Range f = visitUpToStop f m.allPairs ∧
      m.Range (fun _ _ => true) = m.allPairs := by
  constructor
  · exact rangeShards_eq f m.pairs
  · rw [show m.Range (fun _ _ => true) = visitUpToStop (fun _ _ => true) m.allPairs
      from rangeShards_eq _ m.pairs]
    exact visitUpToStop_true m.allPairs

/-- Claim C10: duplicate-freedom of keys within each shard chain is an
invariant: it holds of a freshly constructed map and is preserved by
`Store`, `LoadOrStore`, `LoadAndStore`, `StoreNotExists` and (whenever it
returns at all) `Delete`. -/
theorem chains_have_nodup_keys_invariant (T : Type) :
    (∀ n, Inv (New T n)) ∧
    ∀ (m : Map T) (key : Key) (v : T), Inv m →
      Inv (m.Store key v) ∧ Inv (m.LoadOrStore key v).1 ∧
      Inv (m.LoadAndStore key v).1 ∧ Inv (m.StoreNotExists key v).1 ∧
      ∀ r ∈ m.Delete key, Inv r.1 := by
  constructor
  · intro n c hc
    rw [List.eq_of_mem_replicate hc]
    simp
  · intro m key v hm
    refine ⟨?_, ?_, ?_, ?_, ?_⟩
    · exact inv_set hm (m.index key) _ fun hnd => by
        rw [chainKeys_storeLoop]; exact nodup_if_keys hnd
    · exact inv_set hm (m.index key) _ fun hnd => by
        rw [chainKeys_loadOrStoreLoop]; exact nodup_if_keys hnd
    · exact inv_set hm (m.index key) _ fun hnd => by
        rw [loadAndStoreLoop_eq, chainKeys_storeLoop]; exact nodup_if_keys hnd
    · exact inv_set hm (m.index key) _ fun hnd => by
        rw [chainKeys_storeNotExistsLoop]; exact nodup_if_keys hnd
    · intro r hr
      rw [Option.mem_def] at hr
      simp only [Map.Delete] at hr
      obtain ⟨⟨c2, b2⟩, hdc, hrr⟩ := Option.map_eq_some'.mp hr
      cases hrr
      exact inv_set hm (m.index key) _ fun hnd =>
        hnd.sublist ((deleteChain_sublist hdc).map keyValuePair.key)

/-- Witness for C10 on concrete maps. -/
theorem chains_have_nodup_keys_invariant_witness :
    Inv (New Nat 2) ∧ Inv ((New Nat 2).Store [97] 5) :=
  ⟨(chains_have_nodup_keys_invariant Nat).1 2,
    ((chains_have_nodup_keys_invariant Nat).2 (New Nat 2) [97] 5 (by decide)).1⟩

end LFM
